import Mathlib

/-!
Shallow embedding of `src/tomato/symbolic/symbtr/segment.py`
(class `SegmentExtractor`), the boundary-extraction and
segment-construction core of the tomato repository.

Conventions of the embedding:
* Python ints are `Int`; list positions are `Nat`.
* A Python function that can raise (`assert`, uncaught exceptions)
  returns `Option _`; `none` is an uncaught exception.
* The collaborators `ScoreProcessor` and `StructureLabeler` are not part
  of the sources; the few queries the core consumes are modelled from the
  spec and marked as such in their doc comments.
-/

namespace Tomato

/-- The score, as read by the core: the parallel per-note fields
`code` and `lyrics` (`score['code']`, `score['lyrics']`), plus
`first_note_idx`.

`first_note_idx` is modelled from the spec: the collaborator query
`ScoreProcessor.get_first_note_index(score)` ("index of the first note
considered sounding") is not under the sources, so we carry its result as
a field of the score value. -/
structure Score where
  code : List Int
  lyrics : List String
  first_note_idx : Nat
deriving Repr, DecidableEq

/-- A score section as supplied by the caller: 1-based inclusive
`start_note`/`end_note` plus opaque structure labels. -/
structure Section where
  start_note : Int
  end_note : Int
  melodic_structure : String
  lyrics_structure : String
deriving Repr, DecidableEq

/-- One entry of a segment's `sections` field. -/
structure SectionInfo where
  section_idx : Nat
  melodic_structure : String
  lyrics_structure : String
deriving Repr, DecidableEq

/-- A segment record as built by `_extract`.  `structural_label` is the
field later attached by the `StructureLabeler` collaborator (absent at
construction time). -/
structure Segment where
  name : String
  slug : String
  flavor : List String
  lyrics : String
  sections : List SectionInfo
  start_note : Int
  end_note : Int
  structural_label : Option String
deriving Repr, DecidableEq

/-- The extractor configuration that the embedded core reads:
`crop_consecutive_bounds` is the constructor flag of `SegmentExtractor`.
`labelFn` abstracts the excluded `StructureLabeler` collaborator's label
computation (driven in the source by the similarity thresholds, which only
that collaborator consumes). -/
structure Config where
  crop_consecutive_bounds : Bool
  labelFn : Score → List Segment → Nat → String

/-- Loop of `_crop_consec_bounds` (`for i in range(0, len(bounds) - 1)`),
walking adjacent pairs of the (unmutated) bound list with the loop
counter `i`.  It returns the accumulated `del_idx` list; `nx` is
`next_to_start_idx`, which the source seeds with the bound value
`first_bound_idx + 1` and then extends with the loop indices `i + 1`. -/
def crop_del_idx (i : Nat) (nx : List Int) : List Int → List Nat
  | a :: b :: rest =>
    if b - a = 1 then
      if b - 1 ∈ nx then
        (i + 1) :: crop_del_idx (i + 1) (nx ++ [((i : Int) + 1)]) (b :: rest)
      else
        i :: crop_del_idx (i + 1) nx (b :: rest)
    else
      crop_del_idx (i + 1) nx (b :: rest)
  | _ => []

/-- `for index in sorted(del_idx, reverse=True): del bounds[index]`:
delete positions in descending order, one at a time.  (Python's `del`
raises on an out-of-range index while `List.eraseIdx` is a no-op there;
the indices produced by `crop_del_idx` are always in range, so the two
agree on every reachable input.) -/
def py_delete (bounds : List Int) (del_idx : List Nat) : List Int :=
  (del_idx.insertionSort (· ≥ ·)).foldl (fun l index => l.eraseIdx index) bounds

/-- `_crop_consec_bounds(bounds, first_bound_idx)`: mark the boundary
indices to pop, then delete them in descending order. -/
def crop_consec_bounds (bounds : List Int) (first_bound_idx : Int) : List Int :=
  py_delete bounds (crop_del_idx 0 [first_bound_idx + 1] bounds)

/-- `sorted(list(set(bounds)))`: the ascending duplicate-free enumeration
of the elements. -/
def sorted_set (bounds : List Int) : List Int :=
  bounds.dedup.insertionSort (· ≤ ·)

/-- `_parse_bounds(bounds, score)`: prepend the first note index, append
`len(score['code'])` as sentinel, sort and deduplicate, optionally crop
consecutive boundaries, then assert every bound lies in
`[first_bound_idx, last_bound_idx]` (`none` = failed assert). -/
def parse_bounds (crop : Bool) (bounds : List Int) (score : Score) : Option (List Int) :=
  let first_bound_idx : Int := score.first_note_idx
  let last_bound_idx : Int := score.code.length
  let bounds1 := first_bound_idx :: bounds ++ [last_bound_idx]
  let bounds2 := sorted_set bounds1
  let bounds3 := if crop then crop_consec_bounds bounds2 first_bound_idx else bounds2
  if bounds3.all (fun b => first_bound_idx ≤ b ∧ b ≤ last_bound_idx) then
    some bounds3
  else
    none

/-- Modelled from the spec: `ScoreProcessor.get_lyrics_between(score,
start_idx, end_idx)` ("concatenated lyric content for the inclusive note
range") is a collaborator not under the sources; we concatenate the lyric
fragments of the notes in `[start_idx, end_idx]`. -/
def get_lyrics_between (score : Score) (start_idx end_idx : Int) : String :=
  String.join (((score.lyrics.drop start_idx.toNat).take (end_idx - start_idx + 1).toNat))

/-- `_get_segment_flavor_idx(score, start_note_idx, end_note_idx)`:
collect `score['lyrics'][start + i]` for every position `i` of the slice
`score['code'][start:end + 1]` whose code is 54. -/
def get_segment_flavor_idx (score : Score) (start_note_idx end_note_idx : Int) : List String :=
  (((score.code.drop start_note_idx.toNat).take
      (end_note_idx - start_note_idx + 1).toNat).enum).filterMap
    (fun p => if p.2 = 54 then some (score.lyrics.getD (start_note_idx.toNat + p.1) "") else none)

/-- Loop of `_get_section_idx`: accumulate the (0-based) positions `i` of
every section whose converted range `[start_note - 1, end_note - 1]`
contains `note_idx`. -/
def section_matches (note_idx : Int) : Nat → List Section → List Nat
  | _, [] => []
  | i, sec :: rest =>
    if sec.start_note - 1 ≤ note_idx ∧ note_idx ≤ sec.end_note - 1 then
      i :: section_matches note_idx (i + 1) rest
    else
      section_matches note_idx (i + 1) rest

/-- `_get_section_idx(sections, note_idx)`: assert exactly one section
contains the note and return its position (`none` = failed assert). -/
def get_section_idx (sections : List Section) (note_idx : Int) : Option Nat :=
  match section_matches note_idx 0 sections with
  | [i] => some i
  | _ => none

/-- `_name_segment(lyrics, segment_str)`. -/
def name_segment (lyrics : String) (segment_str : String) : String × String :=
  if lyrics ≠ "" then
    ("VOCAL_" ++ segment_str, "VOCAL_" ++ segment_str)
  else
    ("INSTRUMENTAL_" ++ segment_str, "INSTRUMENTAL_" ++ segment_str)

/-- The `sections` entries of one segment:
`zip(range(start_section_idx, end_section_idx + 1),
     sections[start_section_idx:end_section_idx + 1])`. -/
def section_infos (sections : List Section) (start_section_idx end_section_idx : Nat) :
    List SectionInfo :=
  (((sections.drop start_section_idx).take (end_section_idx + 1 - start_section_idx)).enum).map
    (fun p => { section_idx := start_section_idx + p.1
                melodic_structure := p.2.melodic_structure
                lyrics_structure := p.2.lyrics_structure })

/-- Body of one iteration of the segment loop of `_extract`: build the
segment spanning `[bounds[pp], bounds[pp + 1] - 1]`.  The `sections`
argument is `Option` so that Python's falsy `None` and falsy `[]`
(`if sections:`) are both representable. -/
def build_segment (score : Score) (sections : Option (List Section)) (segment_str : String)
    (b1 b2 : Int) : Option Segment :=
  let start_note_idx := b1
  let end_note_idx := b2 - 1
  let flavor := get_segment_flavor_idx score start_note_idx end_note_idx
  let lyrics := get_lyrics_between score start_note_idx end_note_idx
  let segment_sections : Option (List SectionInfo) :=
    match sections with
    | none => some []
    | some secs =>
      if secs ≠ [] then
        (get_section_idx secs start_note_idx).bind fun start_section_idx =>
        (get_section_idx secs end_note_idx).map fun end_section_idx =>
        section_infos secs start_section_idx end_section_idx
      else
        some []
  segment_sections.map fun segment_sections =>
    let ns := name_segment lyrics segment_str
    { name := ns.1, slug := ns.2, flavor := flavor, lyrics := lyrics
      sections := segment_sections
      start_note := start_note_idx, end_note := end_note_idx
      structural_label := none }

/-- The segment loop of `_extract` (`for pp in range(0, len(bounds) - 1)`)
over an already-parsed bound list: one segment per adjacent bound pair,
in ascending order. -/
def build_segments (score : Score) (sections : Option (List Section)) (segment_str : String) :
    List Int → Option (List Segment)
  | b1 :: b2 :: rest =>
    (build_segment score sections segment_str b1 b2).bind fun seg =>
    (build_segments score sections segment_str (b2 :: rest)).map fun tail =>
    seg :: tail
  | _ => some []

/-- Modelled from the spec: `StructureLabeler.label_structures(segments,
score)` is an excluded collaborator ("attach a refined structural label
to each segment, return the updated sequence"); we attach an abstract
label to each segment and keep every other field and the order. -/
def label_structures (labelFn : Score → List Segment → Nat → String)
    (segments : List Segment) (score : Score) : List Segment :=
  segments.enum.map fun p => { p.2 with structural_label := some (labelFn score segments p.1) }

/-- Modelled from the spec: `StructureLabeler.python_idx_to_symbtr_idx`
is an excluded collaborator; it "rewrites `start_note`/`end_note` on
every segment from internal 0-based indexing to the external 1-based
convention" (the spec's round-trip note: a `+1` shift). -/
def python_idx_to_symbtr_idx (segments : List Segment) : List Segment :=
  segments.map fun seg =>
    { seg with start_note := seg.start_note + 1, end_note := seg.end_note + 1 }

/-- `_extract(bounds, score, sections, segment_str)`: parse the bounds,
build one segment per adjacent bound pair, then hand the sequence to the
labeler and convert the note indices to SymbTr indexing. -/
def extract (cfg : Config) (bounds : List Int) (score : Score)
    (sections : Option (List Section)) (segment_str : String) : Option (List Segment) :=
  (parse_bounds cfg.crop_consecutive_bounds bounds score).bind fun bs =>
  (build_segments score sections segment_str bs).map fun segments =>
  python_idx_to_symbtr_idx (label_structures cfg.labelFn segments score)

/-- `_get_all_bounds_in_score(bound_codes, score)`: the first note index
followed by every position after it whose code is a boundary code. -/
def get_all_bounds_in_score (bound_codes : List Int) (score : Score) : List Int :=
  (score.first_note_idx : Int) ::
    score.code.enum.filterMap
      (fun p => if p.2 ∈ bound_codes ∧ score.first_note_idx < p.1 then some ((p.1 : Int)) else none)

/-- `extract_phrases(score, sections=None)`: phrase boundaries come from
the codes `[51, 53, 54, 55]`; if no note carries an annotation code
(`[53, 54, 55]`) the result is the empty sequence. -/
def extract_phrases (cfg : Config) (score : Score)
    (sections : Option (List Section)) : Option (List Segment) :=
  let bound_codes : List Int := [51, 53, 54, 55]
  let anno_codes : List Int := [53, 54, 55]
  let all_bounds := get_all_bounds_in_score bound_codes score
  let anno_bounds := score.code.enum.filterMap
    (fun p => if p.2 ∈ anno_codes then some p.1 else none)
  if anno_bounds.isEmpty then
    some []
  else
    extract cfg all_bounds score sections "PHRASE"

/-- The externally supplied boundary value of `extract_segments`, a
dynamically typed Python value:
* `absent` — `None` (argument missing or null);
* `ints l` — a list of integers;
* `emptyArrayPlaceholder` — the recognized zero-dimensional empty-array
  artifact saved by the upstream automatic segmentation tool, whose use
  raises a `TypeError`;
* `malformed` — any other unexpected shape (string, mapping, ...) whose
  truthiness test or element arithmetic raises a `TypeError`. -/
inductive BoundaryValue where
  | absent
  | ints (l : List Int)
  | emptyArrayPlaceholder
  | malformed
deriving Repr, DecidableEq

/-- `extract_segments(score, segment_note_bound_idx, sections=None)`:
falsy values give no segments; an integer list is shifted from SymbTr to
python indexing and extracted; a `TypeError` raised inside the `try`
block (the placeholder artifact or any other malformed shape) is caught
and also yields no segments. -/
def extract_segments (cfg : Config) (score : Score) (segment_note_bound_idx : BoundaryValue)
    (sections : Option (List Section)) : Option (List Segment) :=
  match segment_note_bound_idx with
  | .absent => some []
  | .ints [] => some []
  | .ints l => extract cfg (l.map (· - 1)) score sections "SEGMENT"
  | .emptyArrayPlaceholder => some []
  | .malformed => some []

/-! ## Facts about the consecutive-boundary cropping step -/

theorem erase_fold_sublist (d : List Nat) (l : List Int) :
    (d.foldl (fun l index => l.eraseIdx index) l).Sublist l := by
  induction d generalizing l with
  | nil => exact List.Sublist.refl l
  | cons v ds ih => exact (ih (l.eraseIdx v)).trans (List.eraseIdx_sublist l v)

theorem py_delete_sublist (l : List Int) (d : List Nat) : (py_delete l d).Sublist l :=
  erase_fold_sublist _ l

theorem crop_consec_bounds_sublist (l : List Int) (f : Int) :
    (crop_consec_bounds l f).Sublist l :=
  py_delete_sublist l _

theorem not_mem_eraseIdx_of_nodup {l : List Int} {v : Nat} {x : Int}
    (hnd : l.Nodup) (hx : l[v]? = some x) : x ∉ l.eraseIdx v := by
  intro hmem
  obtain ⟨hv, hxe⟩ := List.getElem?_eq_some.mp hx
  obtain ⟨j, hj⟩ := List.mem_iff_getElem?.mp hmem
  rw [List.getElem?_eraseIdx] at hj
  by_cases hlt : j < v
  · rw [if_pos hlt] at hj
    obtain ⟨hj2, hje⟩ := List.getElem?_eq_some.mp hj
    have : j = v := hnd.getElem_inj_iff.mp (hje.trans hxe.symm)
    omega
  · rw [if_neg hlt] at hj
    obtain ⟨hj2, hje⟩ := List.getElem?_eq_some.mp hj
    have : j + 1 = v := hnd.getElem_inj_iff.mp (hje.trans hxe.symm)
    omega

/-- Descending-order deletion removes the entry at every listed position:
if `v` is one of the (descending-sorted) indices, the element of `l` at
position `v` is gone from the final list. -/
theorem erase_fold_not_mem :
    ∀ (d : List Nat) (l : List Int), l.Nodup → d.Sorted (· ≥ ·) →
      ∀ v ∈ d, ∀ x : Int, l[v]? = some x →
        x ∉ d.foldl (fun l index => l.eraseIdx index) l := by
  intro d
  induction d with
  | nil => intro l _ _ v hv; simp at hv
  | cons v0 ds ih =>
    intro l hnd hsort v hv x hx
    have hds : ds.Sorted (· ≥ ·) := (List.sorted_cons.mp hsort).2
    have hle : ∀ w ∈ ds, w ≤ v0 := fun w hw => (List.sorted_cons.mp hsort).1 w hw
    simp only [List.foldl_cons]
    rcases List.mem_cons.mp hv with h0 | htail
    · subst h0
      have hxe : x ∉ l.eraseIdx v := not_mem_eraseIdx_of_nodup hnd hx
      intro hmem
      exact hxe ((erase_fold_sublist ds (l.eraseIdx v)).subset hmem)
    · by_cases hv0 : l.length ≤ v0
      · rw [List.eraseIdx_of_length_le hv0]
        exact ih l hnd hds v htail x hx
      · push_neg at hv0
        by_cases heq : v = v0
        · subst heq
          have hxe : x ∉ l.eraseIdx v := not_mem_eraseIdx_of_nodup hnd hx
          intro hmem
          exact hxe ((erase_fold_sublist ds (l.eraseIdx v)).subset hmem)
        · have hvlt : v < v0 := lt_of_le_of_ne (hle v htail) heq
          have hnd' : (l.eraseIdx v0).Nodup :=
            List.Nodup.sublist (List.eraseIdx_sublist l v0) hnd
          have hx' : (l.eraseIdx v0)[v]? = some x := by
            rw [List.getElem?_eraseIdx, if_pos hvlt]; exact hx
          exact ih (l.eraseIdx v0) hnd' hds v htail x hx'

/-- Every adjacent pair of bounds one apart gets one of its two positions
marked for deletion by the `_crop_consec_bounds` loop. -/
theorem crop_del_idx_covers :
    ∀ (l : List Int) (i : Nat) (nx : List Int) (q : Nat) (a b : Int),
      l[q]? = some a → l[q + 1]? = some b → b - a = 1 →
      i + q ∈ crop_del_idx i nx l ∨ i + q + 1 ∈ crop_del_idx i nx l := by
  intro l
  induction l with
  | nil => intro i nx q a b ha _ _; simp at ha
  | cons x xs ih =>
    intro i nx q a b ha hb hd
    cases xs with
    | nil =>
      exfalso
      cases q with
      | zero => simp at hb
      | succ q => simp at hb
    | cons y ys =>
      cases q with
      | zero =>
        have hax : x = a := by simpa using ha
        have hby : y = b := by simpa using hb
        subst hax; subst hby
        unfold crop_del_idx
        rw [if_pos hd]
        by_cases hnx : y - 1 ∈ nx
        · rw [if_pos hnx]
          right
          simp
        · rw [if_neg hnx]
          left
          simp
      | succ q =>
        rw [List.getElem?_cons_succ] at ha hb
        unfold crop_del_idx
        by_cases hd1 : y - x = 1
        · rw [if_pos hd1]
          by_cases hnx : y - 1 ∈ nx
          · rw [if_pos hnx]
            rcases ih (i + 1) (nx ++ [((i : Int) + 1)]) q a b ha hb hd with h | h
            · left
              refine List.mem_cons_of_mem _ ?_
              have : i + (q + 1) = i + 1 + q := by omega
              rw [this]; exact h
            · right
              refine List.mem_cons_of_mem _ ?_
              have : i + (q + 1) + 1 = i + 1 + q + 1 := by omega
              rw [this]; exact h
          · rw [if_neg hnx]
            rcases ih (i + 1) nx q a b ha hb hd with h | h
            · left
              refine List.mem_cons_of_mem _ ?_
              have : i + (q + 1) = i + 1 + q := by omega
              rw [this]; exact h
            · right
              refine List.mem_cons_of_mem _ ?_
              have : i + (q + 1) + 1 = i + 1 + q + 1 := by omega
              rw [this]; exact h
        · rw [if_neg hd1]
          rcases ih (i + 1) nx q a b ha hb hd with h | h
          · left
            have : i + (q + 1) = i + 1 + q := by omega
            rw [this]; exact h
          · right
            have : i + (q + 1) + 1 = i + 1 + q + 1 := by omega
            rw [this]; exact h

/-- In a strictly ascending list, two members whose values differ by one
sit at adjacent positions. -/
theorem adjacent_getElem_of_sorted :
    ∀ (l : List Int), l.Sorted (· < ·) → ∀ a b : Int, a ∈ l → b ∈ l → b = a + 1 →
      ∃ p, l[p]? = some a ∧ l[p + 1]? = some b := by
  intro l
  induction l with
  | nil => intro _ a b ha; simp at ha
  | cons x xs ih =>
    intro hs a b ha hb hab
    have hsx := List.sorted_cons.mp hs
    rcases List.mem_cons.mp ha with rfl | hax
    · have hbxs : b ∈ xs := by
        rcases List.mem_cons.mp hb with h | h
        · omega
        · exact h
      cases xs with
      | nil => simp at hbxs
      | cons y ys =>
        have hay : a < y := hsx.1 y (List.mem_cons_self y ys)
        have hby : b = y := by
          rcases List.mem_cons.mp hbxs with h | h
          · exact h
          · have := (List.sorted_cons.mp hsx.2).1 b h
            omega
        exact ⟨0, by simp, by simp [hby]⟩
    · have hbxs : b ∈ xs := by
        rcases List.mem_cons.mp hb with h | h
        · exfalso
          have := hsx.1 a hax
          omega
        · exact h
      obtain ⟨p, hpa, hpb⟩ := ih hsx.2 a b hax hbxs hab
      exact ⟨p + 1, by simpa using hpa, by simpa using hpb⟩

/-- Two bounds one apart never both survive a cropping pass over a
strictly ascending bound list. -/
theorem crop_consec_bounds_not_both_mem (l : List Int) (f : Int) (hs : l.Sorted (· < ·))
    {a b : Int} (hab : b = a + 1) (ha : a ∈ crop_consec_bounds l f) :
    b ∉ crop_consec_bounds l f := by
  intro hb
  have hsub : (crop_consec_bounds l f).Sublist l := crop_consec_bounds_sublist l f
  obtain ⟨p, hpa, hpb⟩ :=
    adjacent_getElem_of_sorted l hs a b (hsub.subset ha) (hsub.subset hb) hab
  have hnd : l.Nodup := hs.nodup
  have hcover := crop_del_idx_covers l 0 [f + 1] p a b hpa hpb (by omega)
  simp only [Nat.zero_add] at hcover
  have hsorted : (List.insertionSort (· ≥ ·) (crop_del_idx 0 [f + 1] l)).Sorted (· ≥ ·) :=
    List.sorted_insertionSort (· ≥ ·) _
  have hperm := List.perm_insertionSort (· ≥ ·) (crop_del_idx 0 [f + 1] l)
  unfold crop_consec_bounds py_delete at ha hb
  rcases hcover with h | h
  · exact erase_fold_not_mem _ l hnd hsorted p (hperm.mem_iff.mpr h) a hpa ha
  · exact erase_fold_not_mem _ l hnd hsorted (p + 1) (hperm.mem_iff.mpr h) b hpb hb

/-- After one cropping pass over a strictly ascending bound list, no two
retained bounds are one note apart. -/
theorem crop_consec_bounds_chain (l : List Int) (f : Int) (hs : l.Sorted (· < ·)) :
    List.Chain' (fun a b : Int => b - a ≠ 1) (crop_consec_bounds l f) := by
  have hp : (crop_consec_bounds l f).Pairwise (· < ·) :=
    List.Pairwise.sublist (crop_consec_bounds_sublist l f) hs
  refine List.Pairwise.chain' (List.Pairwise.imp_of_mem ?_ hp)
  intro a b ha hb _ heq
  exact crop_consec_bounds_not_both_mem l f hs (by omega) ha hb

theorem crop_del_idx_eq_nil :
    ∀ (l : List Int) (i : Nat) (nx : List Int),
      List.Chain' (fun a b : Int => b - a ≠ 1) l → crop_del_idx i nx l = [] := by
  intro l
  induction l with
  | nil => intros; rfl
  | cons x xs ih =>
    intro i nx h
    cases xs with
    | nil => rfl
    | cons y ys =>
      have h2 := List.chain'_cons.mp h
      unfold crop_del_idx
      rw [if_neg h2.1]
      exact ih (i + 1) nx h2.2

/-- Cropping does nothing on a list with no two bounds one apart. -/
theorem crop_consec_bounds_of_chain' (l : List Int) (f : Int)
    (h : List.Chain' (fun a b : Int => b - a ≠ 1) l) : crop_consec_bounds l f = l := by
  unfold crop_consec_bounds py_delete
  rw [crop_del_idx_eq_nil l 0 [f + 1] h]
  rfl

/-! ## Facts about `sorted(list(set(...)))` and `_parse_bounds` -/

theorem sorted_set_sorted (l : List Int) : (sorted_set l).Sorted (· < ·) := by
  have h1 : (sorted_set l).Sorted (· ≤ ·) := List.sorted_insertionSort (· ≤ ·) _
  have h2 : (sorted_set l).Nodup :=
    ((List.perm_insertionSort (· ≤ ·) l.dedup).symm).nodup (List.nodup_dedup l)
  exact List.Pairwise.imp (fun h => lt_of_le_of_ne h.1 h.2) (List.Pairwise.and h1 h2)

theorem mem_sorted_set {a : Int} {l : List Int} : a ∈ sorted_set l ↔ a ∈ l := by
  unfold sorted_set
  rw [(List.perm_insertionSort (· ≤ ·) l.dedup).mem_iff, List.mem_dedup]

theorem parse_bounds_elim {crop : Bool} {bounds : List Int} {score : Score} {res : List Int}
    (h : parse_bounds crop bounds score = some res) :
    res = (if crop
           then crop_consec_bounds
             (sorted_set ((score.first_note_idx : Int) :: bounds ++ [(score.code.length : Int)]))
             (score.first_note_idx : Int)
           else
             sorted_set ((score.first_note_idx : Int) :: bounds ++ [(score.code.length : Int)])) ∧
      ∀ b ∈ res, (score.first_note_idx : Int) ≤ b ∧ b ≤ (score.code.length : Int) := by
  cases crop with
  | false =>
    simp only [parse_bounds, Bool.false_eq_true, if_false] at h ⊢
    split at h
    case isTrue hall =>
      cases h
      exact ⟨rfl, fun b hb => by simpa using List.all_eq_true.mp hall b hb⟩
    case isFalse => cases h
  | true =>
    simp only [parse_bounds, if_true] at h ⊢
    split at h
    case isTrue hall =>
      cases h
      exact ⟨rfl, fun b hb => by simpa using List.all_eq_true.mp hall b hb⟩
    case isFalse => cases h

theorem parse_bounds_sorted {crop : Bool} {bounds : List Int} {score : Score} {res : List Int}
    (h : parse_bounds crop bounds score = some res) : res.Sorted (· < ·) := by
  obtain ⟨heq, -⟩ := parse_bounds_elim h
  subst heq
  split
  · exact List.Pairwise.sublist (crop_consec_bounds_sublist _ _) (sorted_set_sorted _)
  · exact sorted_set_sorted _

theorem head_eq_of_min {l : List Int} {m : Int} (hs : l.Sorted (· < ·)) (hm : m ∈ l)
    (hmin : ∀ x ∈ l, m ≤ x) : l.head? = some m := by
  cases l with
  | nil => simp at hm
  | cons x xs =>
    rcases List.mem_cons.mp hm with rfl | hmx
    · rfl
    · exfalso
      have h1 := (List.sorted_cons.mp hs).1 m hmx
      have h2 := hmin x (List.mem_cons_self x xs)
      omega

theorem getLast_eq_of_max {l : List Int} {m : Int} (hs : l.Sorted (· < ·)) (hm : m ∈ l)
    (hmax : ∀ x ∈ l, x ≤ m) : l.getLast? = some m := by
  induction l with
  | nil => simp at hm
  | cons x xs ih =>
    cases xs with
    | nil =>
      rcases List.mem_cons.mp hm with rfl | h
      · rfl
      · simp at h
    | cons y ys =>
      have hs' := (List.sorted_cons.mp hs).2
      rw [List.getLast?_cons_cons]
      apply ih hs'
      · rcases List.mem_cons.mp hm with rfl | h
        · exfalso
          have h1 := (List.sorted_cons.mp hs).1 y (List.mem_cons_self y ys)
          have h2 := hmax y (List.mem_cons_of_mem _ (List.mem_cons_self y ys))
          omega
        · exact h
      · intro z hz
        exact hmax z (List.mem_cons_of_mem x hz)

theorem two_le_length_of_mem_ne {l : List Int} {a b : Int} (ha : a ∈ l) (hb : b ∈ l)
    (hne : a ≠ b) : 2 ≤ l.length := by
  cases l with
  | nil => simp at ha
  | cons x xs =>
    cases xs with
    | nil =>
      simp only [List.mem_singleton] at ha hb
      exact absurd (ha.trans hb.symm) hne
    | cons y ys =>
      simp only [List.length_cons]
      omega

/-! ## Claim theorems about cropping and bound parsing -/

/-- C5: for every sorted, duplicate-free bound list and first-note index,
applying the consecutive-boundary cropping step twice yields the same
sequence as applying it once. -/
theorem crop_consec_bounds_idempotent (bounds : List Int) (first_bound_idx : Int)
    (hs : bounds.Sorted (· ≤ ·)) (hn : bounds.Nodup) :
    crop_consec_bounds (crop_consec_bounds bounds first_bound_idx) first_bound_idx
      = crop_consec_bounds bounds first_bound_idx :=
  crop_consec_bounds_of_chain' _ _
    (crop_consec_bounds_chain bounds first_bound_idx
      (List.Pairwise.imp (fun h => lt_of_le_of_ne h.1 h.2) (List.Pairwise.and hs hn)))

/-- Witness for C5 at the concrete sorted bound list [0, 4, 5, 10]. -/
theorem crop_consec_bounds_idempotent_witness :
    crop_consec_bounds (crop_consec_bounds [0, 4, 5, 10] 0) 0
      = crop_consec_bounds [0, 4, 5, 10] 0 :=
  crop_consec_bounds_idempotent [0, 4, 5, 10] 0 (by decide) (by decide)

/-- C4: cropping the normalized bounds [0, 4, 5, 10] with first-note
index 0 removes the bound 4 — the first member of the adjacent pair
(4, 5) — and yields [0, 5, 10]. -/
theorem crop_consec_bounds_scenario_c :
    crop_consec_bounds [0, 4, 5, 10] 0 = [0, 5, 10] ∧
      (4 : Int) ∉ crop_consec_bounds [0, 4, 5, 10] 0 := by
  exact ⟨by decide, by decide⟩

/-- C1 fails on the code: on the sorted, duplicate-free bound list
[0, 1, 2, 10] containing the first-note index 0, the cropping step
removes the first boundary 0 and collapses the run [0, 1, 2] to 1 — not
to the first bound of the run — returning [1, 10] instead of [0, 10]. -/
theorem crop_consec_bounds_c1_counterexample :
    crop_consec_bounds [0, 1, 2, 10] 0 = [1, 10] ∧
      (0 : Int) ∉ crop_consec_bounds [0, 1, 2, 10] 0 ∧
      crop_consec_bounds [0, 1, 2, 10] 0 ≠ [0, 10] := by
  exact ⟨by decide, by decide, by decide⟩

/-- C1 amended: for every sorted, duplicate-free bound list, the
cropping step returns a subsequence of the bounds in which no two
retained bounds are one note apart (every run of consecutive boundaries
loses all its adjacencies), but it keeps neither the first boundary
after the score start nor the first bound of a run in general. -/
theorem crop_consec_bounds_run_collapse (bounds : List Int) (first_bound_idx : Int)
    (hs : bounds.Sorted (· ≤ ·)) (hn : bounds.Nodup) :
    (crop_consec_bounds bounds first_bound_idx).Sublist bounds ∧
      List.Chain' (fun a b : Int => b - a ≠ 1)
        (crop_consec_bounds bounds first_bound_idx) :=
  ⟨crop_consec_bounds_sublist _ _,
   crop_consec_bounds_chain bounds first_bound_idx
     (List.Pairwise.imp (fun h => lt_of_le_of_ne h.1 h.2) (List.Pairwise.and hs hn))⟩

/-- Witness for the amended C1 at the concrete bound list [0, 2, 3, 10]. -/
theorem crop_consec_bounds_run_collapse_witness :
    (crop_consec_bounds [0, 2, 3, 10] 0).Sublist [0, 2, 3, 10] ∧
      List.Chain' (fun a b : Int => b - a ≠ 1) (crop_consec_bounds [0, 2, 3, 10] 0) :=
  crop_consec_bounds_run_collapse [0, 2, 3, 10] 0 (by decide) (by decide)

/-- C2 fails on the code: with cropping enabled, a successful parse can
return bounds whose first element differs from the first-note index,
whose last element differs from len(score.code), and whose length is
below 2.  On a two-note score with first-note index 0 and the input
bound list [1], `_parse_bounds` returns [1]. -/
theorem parse_bounds_c2_counterexample :
    parse_bounds true [1] ⟨[0, 0], ["", ""], 0⟩ = some [1] ∧
      ([1] : List Int).head? ≠ some ((0 : Nat) : Int) ∧
      ([1] : List Int).getLast? ≠ some ((2 : Nat) : Int) ∧
      ¬ 2 ≤ ([1] : List Int).length := by
  exact ⟨by decide, by decide, by decide, by decide⟩

/-- C2 amended: any bound list returned by a successful `_parse_bounds`
is strictly ascending (hence duplicate-free), for both values of the
cropping flag; when cropping is disabled the list moreover starts at the
first-note index, ends at len(score.code), and has length at least 2. -/
theorem parse_bounds_spec (crop : Bool) (bounds : List Int) (score : Score) (res : List Int)
    (h : parse_bounds crop bounds score = some res)
    (hf : (score.first_note_idx : Int) < (score.code.length : Int)) :
    res.Sorted (· < ·) ∧
      (crop = false →
        res.head? = some (score.first_note_idx : Int) ∧
          res.getLast? = some ((score.code.length : Int)) ∧
          2 ≤ res.length) := by
  obtain ⟨heq, hrange⟩ := parse_bounds_elim h
  refine ⟨parse_bounds_sorted h, ?_⟩
  rintro rfl
  simp only [Bool.false_eq_true, if_false] at heq
  subst heq
  have hfirstmem :
      (score.first_note_idx : Int) ∈
        sorted_set ((score.first_note_idx : Int) :: bounds ++ [(score.code.length : Int)]) :=
    mem_sorted_set.mpr (List.mem_cons_self _ _)
  have hlastmem :
      ((score.code.length : Int)) ∈
        sorted_set ((score.first_note_idx : Int) :: bounds ++ [(score.code.length : Int)]) :=
    mem_sorted_set.mpr (List.mem_cons_of_mem _ (List.mem_append_right _ (List.mem_singleton.mpr rfl)))
  exact ⟨head_eq_of_min (sorted_set_sorted _) hfirstmem (fun x hx => (hrange x hx).1),
         getLast_eq_of_max (sorted_set_sorted _) hlastmem (fun x hx => (hrange x hx).2),
         two_le_length_of_mem_ne hfirstmem hlastmem (by omega)⟩

/-- Witness for the amended C2 on a ten-note score with bound input [5]. -/
theorem parse_bounds_spec_witness :
    ([0, 5, 10] : List Int).Sorted (· < ·) ∧
      (false = false →
        ([0, 5, 10] : List Int).head? =
            some ((⟨List.replicate 10 0, List.replicate 10 "", 0⟩ : Score).first_note_idx : Int) ∧
          ([0, 5, 10] : List Int).getLast? =
            some (((⟨List.replicate 10 0, List.replicate 10 "", 0⟩ : Score).code.length : Int)) ∧
          2 ≤ ([0, 5, 10] : List Int).length) :=
  parse_bounds_spec false [5] ⟨List.replicate 10 0, List.replicate 10 "", 0⟩ [0, 5, 10]
    (by decide) (by decide)

/-! ## Facts about `_get_section_idx` -/

theorem mem_section_matches :
    ∀ (sections : List Section) (off k : Nat) (note_idx : Int),
      k ∈ section_matches note_idx off sections ↔
        ∃ j, ∃ hj : j < sections.length, k = off + j ∧
          ((sections.get ⟨j, hj⟩).start_note - 1 ≤ note_idx ∧
            note_idx ≤ (sections.get ⟨j, hj⟩).end_note - 1) := by
  intro sections
  induction sections with
  | nil => intro off k n; simp [section_matches]
  | cons sec rest ih =>
    intro off k n
    unfold section_matches
    by_cases hc : sec.start_note - 1 ≤ n ∧ n ≤ sec.end_note - 1
    · rw [if_pos hc]
      constructor
      · intro hk
        rcases List.mem_cons.mp hk with rfl | hk2
        · exact ⟨0, by simp, by omega, by simpa using hc⟩
        · obtain ⟨j, hj, hkeq, hcont⟩ := (ih (off + 1) k n).mp hk2
          exact ⟨j + 1, by simpa using hj, by omega, by simpa using hcont⟩
      · rintro ⟨j, hj, rfl, hcont⟩
        cases j with
        | zero => simp
        | succ j =>
          refine List.mem_cons_of_mem _ ?_
          refine (ih (off + 1) (off + (j + 1)) n).mpr ⟨j, by simpa using hj, by omega, ?_⟩
          simpa using hcont
    · rw [if_neg hc]
      constructor
      · intro hk
        obtain ⟨j, hj, hkeq, hcont⟩ := (ih (off + 1) k n).mp hk
        exact ⟨j + 1, by simpa using hj, by omega, by simpa using hcont⟩
      · rintro ⟨j, hj, rfl, hcont⟩
        cases j with
        | zero => exact absurd (by simpa using hcont) hc
        | succ j =>
          refine (ih (off + 1) (off + (j + 1)) n).mpr ⟨j, by simpa using hj, by omega, ?_⟩
          simpa using hcont

theorem section_matches_ge {sections : List Section} {off k : Nat} {note_idx : Int}
    (h : k ∈ section_matches note_idx off sections) : off ≤ k := by
  obtain ⟨j, hj, hkeq, -⟩ := (mem_section_matches sections off k note_idx).mp h
  omega

theorem section_matches_nodup :
    ∀ (sections : List Section) (off : Nat) (note_idx : Int),
      (section_matches note_idx off sections).Nodup := by
  intro sections
  induction sections with
  | nil => intro off n; simp [section_matches]
  | cons sec rest ih =>
    intro off n
    unfold section_matches
    split
    · refine List.nodup_cons.mpr ⟨?_, ih (off + 1) n⟩
      intro hmem
      have := section_matches_ge hmem
      omega
    · exact ih (off + 1) n

theorem eq_singleton_of_nodup {l : List Nat} {i : Nat} (hnd : l.Nodup) (hi : i ∈ l)
    (hall : ∀ k ∈ l, k = i) : l = [i] := by
  cases l with
  | nil => simp at hi
  | cons x xs =>
    have hx : x = i := hall x (List.mem_cons_self x xs)
    subst hx
    cases xs with
    | nil => rfl
    | cons y ys =>
      have hy : y = x := hall y (List.mem_cons_of_mem _ (List.mem_cons_self y ys))
      subst hy
      exact absurd (List.mem_cons_self y ys) (List.nodup_cons.mp hnd).1

theorem get_section_idx_eq_some_iff {sections : List Section} {n : Int} {i : Nat} :
    get_section_idx sections n = some i ↔ section_matches n 0 sections = [i] := by
  unfold get_section_idx
  cases hm : section_matches n 0 sections with
  | nil => simp
  | cons a tl =>
    cases tl with
    | nil => simp
    | cons b tl2 => simp

theorem get_section_idx_some_char (sections : List Section) (note_idx : Int) (i : Nat) :
    get_section_idx sections note_idx = some i ↔
      (i < sections.length ∧
        ∀ j (hj : j < sections.length),
          (((sections.get ⟨j, hj⟩).start_note - 1 ≤ note_idx ∧
              note_idx ≤ (sections.get ⟨j, hj⟩).end_note - 1) ↔ j = i)) := by
  rw [get_section_idx_eq_some_iff]
  constructor
  · intro hm
    have hi : i ∈ section_matches note_idx 0 sections := by
      rw [hm]; exact List.mem_cons_self _ _
    obtain ⟨j, hj, hij, hcont⟩ := (mem_section_matches sections 0 i note_idx).mp hi
    have hilen : i < sections.length := by omega
    refine ⟨hilen, fun k hk => ⟨fun hck => ?_, ?_⟩⟩
    · have hkm : k ∈ section_matches note_idx 0 sections :=
        (mem_section_matches sections 0 k note_idx).mpr ⟨k, hk, by omega, hck⟩
      rw [hm] at hkm
      simpa using hkm
    · rintro rfl
      obtain rfl : j = k := by omega
      exact hcont
  · rintro ⟨hi, hall⟩
    refine eq_singleton_of_nodup (section_matches_nodup sections 0 note_idx) ?_ ?_
    · exact (mem_section_matches sections 0 i note_idx).mpr ⟨i, hi, by omega, (hall i hi).mpr rfl⟩
    · intro k hk
      obtain ⟨j, hj, hkj, hcont⟩ := (mem_section_matches sections 0 k note_idx).mp hk
      have := (hall j hj).mp hcont
      omega

/-- C7: section resolution returns `some i` exactly when the (1-based,
inclusive) range of section `i` — and of no other section — contains the
note; with zero or several containing sections it fails (the
`AmbiguousSectionMembership` assert, modelled as `none`), never silently
picking the first match. -/
theorem get_section_idx_spec (sections : List Section) (note_idx : Int) :
    (∀ i, get_section_idx sections note_idx = some i ↔
      (i < sections.length ∧
        ∀ j (hj : j < sections.length),
          (((sections.get ⟨j, hj⟩).start_note - 1 ≤ note_idx ∧
              note_idx ≤ (sections.get ⟨j, hj⟩).end_note - 1) ↔ j = i))) ∧
      (get_section_idx sections note_idx = none ↔
        ¬ ∃ i, i < sections.length ∧
          ∀ j (hj : j < sections.length),
            (((sections.get ⟨j, hj⟩).start_note - 1 ≤ note_idx ∧
                note_idx ≤ (sections.get ⟨j, hj⟩).end_note - 1) ↔ j = i)) := by
  refine ⟨get_section_idx_some_char sections note_idx, ?_, ?_⟩
  · rintro hnone ⟨i, hi, hall⟩
    have := (get_section_idx_some_char sections note_idx i).mpr ⟨hi, hall⟩
    rw [hnone] at this
    cases this
  · intro hne
    cases hopt : get_section_idx sections note_idx with
    | none => rfl
    | some i =>
      exact absurd ⟨i, (get_section_idx_some_char sections note_idx i).mp hopt⟩ hne

/-- Witness for C7: in a two-section list, note 2 lies only in the first
section (SymbTr range 1..4), and resolution returns index 0. -/
theorem get_section_idx_spec_witness :
    get_section_idx [⟨1, 4, "A", "a"⟩, ⟨5, 8, "B", "b"⟩] 2 = some 0 :=
  ((get_section_idx_spec [⟨1, 4, "A", "a"⟩, ⟨5, 8, "B", "b"⟩] 2).1 0).mpr (by decide)

/-! ## Facts about the segment loop of `_extract` -/

theorem build_segment_start_end {score : Score} {sections : Option (List Section)}
    {segment_str : String} {b1 b2 : Int} {seg : Segment}
    (h : build_segment score sections segment_str b1 b2 = some seg) :
    seg.start_note = b1 ∧ seg.end_note = b2 - 1 := by
  simp only [build_segment] at h
  obtain ⟨ss, -, heq⟩ := Option.map_eq_some'.mp h
  subst heq
  exact ⟨rfl, rfl⟩

theorem build_segments_starts :
    ∀ (bs : List Int) (score : Score) (sections : Option (List Section)) (segment_str : String)
      (segs : List Segment),
      build_segments score sections segment_str bs = some segs →
      segs.map (fun s => s.start_note) = bs.dropLast := by
  intro bs
  induction bs with
  | nil =>
    intro score sections str segs h
    cases h
    rfl
  | cons b1 tl ih =>
    cases tl with
    | nil =>
      intro score sections str segs h
      cases h
      rfl
    | cons b2 rest =>
      intro score sections str segs h
      simp only [build_segments] at h
      obtain ⟨seg, hseg, h2⟩ := Option.bind_eq_some.mp h
      obtain ⟨tail, htail, heq⟩ := Option.map_eq_some'.mp h2
      subst heq
      have hdrop : (b1 :: b2 :: rest).dropLast = b1 :: (b2 :: rest).dropLast := rfl
      rw [List.map_cons, ih score sections str tail htail, hdrop,
        (build_segment_start_end hseg).1]

theorem build_segments_le :
    ∀ (bs : List Int) (score : Score) (sections : Option (List Section)) (segment_str : String)
      (segs : List Segment),
      bs.Sorted (· < ·) →
      build_segments score sections segment_str bs = some segs →
      ∀ s ∈ segs, s.start_note ≤ s.end_note := by
  intro bs
  induction bs with
  | nil =>
    intro score sections str segs _ h s hs
    cases h
    simp at hs
  | cons b1 tl ih =>
    cases tl with
    | nil =>
      intro score sections str segs _ h s hs
      cases h
      simp at hs
    | cons b2 rest =>
      intro score sections str segs hsort h s hs
      simp only [build_segments] at h
      obtain ⟨seg, hseg, h2⟩ := Option.bind_eq_some.mp h
      obtain ⟨tail, htail, heq⟩ := Option.map_eq_some'.mp h2
      subst heq
      rcases List.mem_cons.mp hs with rfl | hs2
      · obtain ⟨h1, h2'⟩ := build_segment_start_end hseg
        have hlt : b1 < b2 := (List.sorted_cons.mp hsort).1 b2 (List.mem_cons_self _ _)
        rw [h1, h2']
        omega
      · exact ih score sections str tail (List.sorted_cons.mp hsort).2 htail s hs2

theorem build_segments_chain :
    ∀ (bs : List Int) (score : Score) (sections : Option (List Section)) (segment_str : String)
      (segs : List Segment),
      build_segments score sections segment_str bs = some segs →
      List.Chain' (fun s t : Segment => s.end_note + 1 = t.start_note) segs := by
  intro bs
  induction bs with
  | nil =>
    intro score sections str segs h
    cases h
    exact List.chain'_nil
  | cons b1 tl ih =>
    cases tl with
    | nil =>
      intro score sections str segs h
      cases h
      exact List.chain'_nil
    | cons b2 rest =>
      intro score sections str segs h
      simp only [build_segments] at h
      obtain ⟨seg, hseg, h2⟩ := Option.bind_eq_some.mp h
      obtain ⟨tail, htail, heq⟩ := Option.map_eq_some'.mp h2
      subst heq
      have hch := ih score sections str tail htail
      cases tail with
      | nil => exact List.chain'_singleton _
      | cons t ts =>
        refine List.chain'_cons.mpr ⟨?_, hch⟩
        obtain ⟨-, hend⟩ := build_segment_start_end hseg
        have hstarts := build_segments_starts (b2 :: rest) score sections str (t :: ts) htail
        cases rest with
        | nil => simp at hstarts
        | cons b3 rest2 =>
          have hdrop : (b2 :: b3 :: rest2).dropLast = b2 :: (b3 :: rest2).dropLast := rfl
          rw [List.map_cons, hdrop] at hstarts
          have hts : t.start_note = b2 := (List.cons_eq_cons.mp hstarts).1
          rw [hend, hts]
          omega

theorem mem_dropLast_lt_getLast {l : List Int} (hs : l.Sorted (· < ·)) {x : Int}
    (hx : x ∈ l.dropLast) {L : Int} (hL : l.getLast? = some L) : x < L := by
  have hne : l ≠ [] := by
    rintro rfl
    simp at hx
  have hL2 : L = l.getLast hne := by
    rw [List.getLast?_eq_getLast l hne] at hL
    exact (Option.some_inj.mp hL).symm
  subst hL2
  have happ := List.dropLast_append_getLast hne
  have hp : (l.dropLast ++ [l.getLast hne]).Pairwise (· < ·) := by
    rw [happ]
    exact hs
  exact (List.pairwise_append.mp hp).2.2 x hx _ (List.mem_singleton.mpr rfl)

/-- C3: over any bound list produced by `_parse_bounds`, every built
segment (pre-labeling, internal indexing) has `start_note ≤ end_note`,
adjacent segments are contiguous (`end_note + 1` of one is `start_note`
of the next), and the sentinel bound `len(score.code)` is never a
segment start. -/
theorem build_segments_invariants (crop : Bool) (input_bounds : List Int) (score : Score)
    (sections : Option (List Section)) (segment_str : String) (bs : List Int)
    (segs : List Segment)
    (hp : parse_bounds crop input_bounds score = some bs)
    (hb : build_segments score sections segment_str bs = some segs) :
    (∀ s ∈ segs, s.start_note ≤ s.end_note) ∧
      List.Chain' (fun s t : Segment => s.end_note + 1 = t.start_note) segs ∧
      (∀ s ∈ segs, s.start_note ≠ (score.code.length : Int)) := by
  have hsort : bs.Sorted (· < ·) := parse_bounds_sorted hp
  have hrange := (parse_bounds_elim hp).2
  refine ⟨build_segments_le bs score sections segment_str segs hsort hb,
          build_segments_chain bs score sections segment_str segs hb, ?_⟩
  intro s hs
  have hmap := build_segments_starts bs score sections segment_str segs hb
  have hsd : s.start_note ∈ bs.dropLast := by
    rw [← hmap]
    exact List.mem_map_of_mem _ hs
  have hne : bs ≠ [] := by
    rintro rfl
    simp at hsd
  have hlast : bs.getLast? = some (bs.getLast hne) := List.getLast?_eq_getLast bs hne
  have hlt : s.start_note < bs.getLast hne := mem_dropLast_lt_getLast hsort hsd hlast
  have hle : bs.getLast hne ≤ (score.code.length : Int) :=
    (hrange _ (List.getLast_mem hne)).2
  omega

/-- Witness for C3 on a ten-note score with bound input [5]. -/
theorem build_segments_invariants_witness :
    (∀ s ∈ ([{ name := "INSTRUMENTAL_SEGMENT", slug := "INSTRUMENTAL_SEGMENT", flavor := [],
               lyrics := "", sections := [], start_note := 0, end_note := 4,
               structural_label := none },
             { name := "INSTRUMENTAL_SEGMENT", slug := "INSTRUMENTAL_SEGMENT", flavor := [],
               lyrics := "", sections := [], start_note := 5, end_note := 9,
               structural_label := none }] : List Segment),
        s.start_note ≤ s.end_note) ∧
      List.Chain' (fun s t : Segment => s.end_note + 1 = t.start_note)
        ([{ name := "INSTRUMENTAL_SEGMENT", slug := "INSTRUMENTAL_SEGMENT", flavor := [],
            lyrics := "", sections := [], start_note := 0, end_note := 4,
            structural_label := none },
          { name := "INSTRUMENTAL_SEGMENT", slug := "INSTRUMENTAL_SEGMENT", flavor := [],
            lyrics := "", sections := [], start_note := 5, end_note := 9,
            structural_label := none }] : List Segment) ∧
      (∀ s ∈ ([{ name := "INSTRUMENTAL_SEGMENT", slug := "INSTRUMENTAL_SEGMENT", flavor := [],
                 lyrics := "", sections := [], start_note := 0, end_note := 4,
                 structural_label := none },
               { name := "INSTRUMENTAL_SEGMENT", slug := "INSTRUMENTAL_SEGMENT", flavor := [],
                 lyrics := "", sections := [], start_note := 5, end_note := 9,
                 structural_label := none }] : List Segment),
        s.start_note ≠ (10 : Int)) :=
  build_segments_invariants false [5]
    ⟨List.replicate 10 0, List.replicate 10 "", 0⟩ none "SEGMENT" [0, 5, 10] _
    (by decide) rfl

/-! ## Facts about the extraction entry points -/

theorem post_maps_starts (fn : Score → List Segment → Nat → String) (segs : List Segment)
    (score : Score) :
    (python_idx_to_symbtr_idx (label_structures fn segs score)).map (fun s => s.start_note)
      = (segs.map (fun s => s.start_note)).map (fun x => x + 1) := by
  unfold python_idx_to_symbtr_idx label_structures
  simp only [List.map_map]
  conv_rhs => rw [← List.enum_map_snd segs]
  simp only [List.map_map]
  rfl

theorem post_maps_sections (fn : Score → List Segment → Nat → String) (segs : List Segment)
    (score : Score) :
    (python_idx_to_symbtr_idx (label_structures fn segs score)).map (fun s => s.sections)
      = segs.map (fun s => s.sections) := by
  unfold python_idx_to_symbtr_idx label_structures
  simp only [List.map_map]
  conv_rhs => rw [← List.enum_map_snd segs]
  simp only [List.map_map]
  rfl

theorem extract_starts_sorted {cfg : Config} {bounds : List Int} {score : Score}
    {sections : Option (List Section)} {segment_str : String} {segs : List Segment}
    (h : extract cfg bounds score sections segment_str = some segs) :
    (segs.map (fun s => s.start_note)).Sorted (· < ·) := by
  simp only [extract] at h
  obtain ⟨bs, hbs, h2⟩ := Option.bind_eq_some.mp h
  obtain ⟨segs0, hsegs0, heq⟩ := Option.map_eq_some'.mp h2
  subst heq
  have hsort : bs.Sorted (· < ·) := parse_bounds_sorted hbs
  have hstart0 := build_segments_starts bs score sections segment_str segs0 hsegs0
  have hsorted0 : (segs0.map (fun s => s.start_note)).Sorted (· < ·) := by
    rw [hstart0]
    exact List.Pairwise.sublist (List.dropLast_sublist bs) hsort
  rw [post_maps_starts]
  exact List.pairwise_map.mpr (hsorted0.imp (fun h => by omega))

/-- C9: for a fixed configuration, extraction is a pure function of its
inputs (two runs on equal inputs agree definitionally), and any returned
segment sequence is in strictly ascending score order by `start_note`. -/
theorem extraction_deterministic_ordered (cfg : Config) (score : Score)
    (sections : Option (List Section)) (bnd : BoundaryValue) :
    (extract_phrases cfg score sections = extract_phrases cfg score sections ∧
      extract_segments cfg score bnd sections = extract_segments cfg score bnd sections) ∧
      (∀ segs, extract_phrases cfg score sections = some segs →
        (segs.map (fun s => s.start_note)).Sorted (· < ·)) ∧
      (∀ segs, extract_segments cfg score bnd sections = some segs →
        (segs.map (fun s => s.start_note)).Sorted (· < ·)) := by
  refine ⟨⟨rfl, rfl⟩, ?_, ?_⟩
  · intro segs h
    simp only [extract_phrases] at h
    split at h
    · cases h
      exact List.sorted_nil
    · exact extract_starts_sorted h
  · intro segs h
    cases bnd with
    | absent =>
      cases h
      exact List.sorted_nil
    | ints l =>
      cases l with
      | nil =>
        cases h
        exact List.sorted_nil
      | cons b tl => exact extract_starts_sorted h
    | emptyArrayPlaceholder =>
      cases h
      exact List.sorted_nil
    | malformed =>
      cases h
      exact List.sorted_nil

/-- Witness for C9: the concrete phrase extraction on a five-note score
with one annotated boundary returns segments with ascending starts. -/
theorem extraction_deterministic_ordered_witness :
    (([1, 3] : List Int)).Sorted (· < ·) :=
  (extraction_deterministic_ordered ⟨true, fun _ _ _ => "L"⟩
      ⟨[0, 0, 53, 0, 0], ["", "la", "", "", "do"], 0⟩ none BoundaryValue.absent).2.1
    [{ name := "VOCAL_PHRASE", slug := "VOCAL_PHRASE", flavor := [], lyrics := "la",
       sections := [], start_note := 1, end_note := 2, structural_label := some "L" },
     { name := "VOCAL_PHRASE", slug := "VOCAL_PHRASE", flavor := [], lyrics := "do",
       sections := [], start_note := 3, end_note := 5, structural_label := some "L" }]
    (by decide)

/-- C8: if no note's code is an annotation tag (53, 54, 55) — even if
usul-change tags 51 are present — `extract_phrases` returns the empty
sequence. -/
theorem extract_phrases_no_anno (cfg : Config) (score : Score)
    (sections : Option (List Section))
    (h : ∀ c ∈ score.code, c ≠ 53 ∧ c ≠ 54 ∧ c ≠ 55) :
    extract_phrases cfg score sections = some [] := by
  simp only [extract_phrases]
  have hnil : score.code.enum.filterMap
      (fun p => if p.2 ∈ ([53, 54, 55] : List Int) then some p.1 else none) = [] := by
    rw [List.filterMap_eq_nil_iff]
    intro p hp
    have hg := List.mem_enum_iff_getElem?.mp hp
    obtain ⟨hlt, hge⟩ := List.getElem?_eq_some.mp hg
    have hc : p.2 ∈ score.code := hge ▸ List.getElem_mem hlt
    obtain ⟨h53, h54, h55⟩ := h p.2 hc
    have hnot : p.2 ∉ ([53, 54, 55] : List Int) := by
      simp [h53, h54, h55]
    rw [if_neg hnot]
  rw [hnil]
  rfl

/-- Witness for C8: a score whose codes are only usul changes. -/
theorem extract_phrases_no_anno_witness :
    extract_phrases ⟨true, fun _ _ _ => ""⟩ ⟨[51, 0, 51], ["", "", ""], 0⟩ none = some [] :=
  extract_phrases_no_anno ⟨true, fun _ _ _ => ""⟩ ⟨[51, 0, 51], ["", "", ""], 0⟩ none (by decide)

/-- C6 fails on the code: the `except TypeError` handler also swallows
malformed boundary values that are not the recognized placeholder,
silently returning an empty sequence instead of reporting the error. -/
theorem extract_segments_c6_counterexample :
    extract_segments ⟨true, fun _ _ _ => ""⟩ ⟨[0, 0], ["", ""], 0⟩ BoundaryValue.malformed none
        = some [] ∧
      extract_segments ⟨true, fun _ _ _ => ""⟩ ⟨[0, 0], ["", ""], 0⟩ BoundaryValue.malformed none
        ≠ none :=
  ⟨rfl, fun h => Option.noConfusion h⟩

/-- C6 amended: `extract_segments` returns an empty sequence without
raising when the boundary value is absent or the recognized empty-array
placeholder, and any other malformed (`TypeError`-raising) shape is
likewise caught and yields an empty sequence rather than an error
reported to the caller. -/
theorem extract_segments_falsy (cfg : Config) (score : Score)
    (sections : Option (List Section)) :
    extract_segments cfg score BoundaryValue.absent sections = some [] ∧
      extract_segments cfg score BoundaryValue.emptyArrayPlaceholder sections = some [] ∧
      extract_segments cfg score BoundaryValue.malformed sections = some [] :=
  ⟨rfl, rfl, rfl⟩

/-! ## Extraction without a section list -/

theorem build_segment_none_eq (score : Score) (segment_str : String) (b1 b2 : Int) :
    build_segment score none segment_str b1 b2
      = build_segment score (some []) segment_str b1 b2 := by
  simp [build_segment]

theorem build_segments_none_eq (score : Score) (segment_str : String) :
    ∀ bs, build_segments score none segment_str bs
      = build_segments score (some []) segment_str bs := by
  intro bs
  induction bs with
  | nil => rfl
  | cons b1 tl ih =>
    cases tl with
    | nil => rfl
    | cons b2 rest =>
      simp only [build_segments]
      rw [build_segment_none_eq, ih]

theorem build_segment_sections_nil {score : Score} {sections : Option (List Section)}
    {segment_str : String} {b1 b2 : Int} {seg : Segment}
    (hsec : sections = none ∨ sections = some [])
    (h : build_segment score sections segment_str b1 b2 = some seg) :
    seg.sections = [] := by
  rcases hsec with rfl | rfl
  · simp only [build_segment, Option.map_eq_some'] at h
    obtain ⟨ss, hss, heq⟩ := h
    cases hss
    subst heq
    rfl
  · simp only [build_segment, ne_eq, not_true_eq_false, if_false, reduceIte,
      Option.map_eq_some'] at h
    obtain ⟨ss, hss, heq⟩ := h
    cases hss
    subst heq
    rfl

theorem build_segments_sections_nil {score : Score} {sections : Option (List Section)}
    {segment_str : String}
    (hsec : sections = none ∨ sections = some []) :
    ∀ bs segs, build_segments score sections segment_str bs = some segs →
      ∀ s ∈ segs, s.sections = [] := by
  intro bs
  induction bs with
  | nil =>
    intro segs h s hs
    cases h
    simp at hs
  | cons b1 tl ih =>
    cases tl with
    | nil =>
      intro segs h s hs
      cases h
      simp at hs
    | cons b2 rest =>
      intro segs h s hs
      simp only [build_segments] at h
      obtain ⟨seg, hseg, h2⟩ := Option.bind_eq_some.mp h
      obtain ⟨tail, htail, heq⟩ := Option.map_eq_some'.mp h2
      subst heq
      rcases List.mem_cons.mp hs with rfl | hs2
      · exact build_segment_sections_nil hsec hseg
      · exact ih tail htail s hs2

theorem extract_none_eq (cfg : Config) (bounds : List Int) (score : Score)
    (segment_str : String) :
    extract cfg bounds score none segment_str
      = extract cfg bounds score (some []) segment_str := by
  simp only [extract, build_segments_none_eq]

theorem extract_sections_nil {cfg : Config} {bounds : List Int} {score : Score}
    {sections : Option (List Section)} {segment_str : String} {segs : List Segment}
    (hsec : sections = none ∨ sections = some [])
    (h : extract cfg bounds score sections segment_str = some segs) :
    ∀ s ∈ segs, s.sections = [] := by
  simp only [extract] at h
  obtain ⟨bs, hbs, h2⟩ := Option.bind_eq_some.mp h
  obtain ⟨segs0, hsegs0, heq⟩ := Option.map_eq_some'.mp h2
  subst heq
  intro s hs
  have hmem : s.sections ∈
      (python_idx_to_symbtr_idx (label_structures cfg.labelFn segs0 score)).map
        (fun s => s.sections) :=
    List.mem_map_of_mem _ hs
  rw [post_maps_sections] at hmem
  obtain ⟨s0, hs0, heq0⟩ := List.mem_map.mp hmem
  rw [← heq0]
  exact build_segments_sections_nil hsec bs segs0 hsegs0 s0 hs0

/-- C10: calling either entry point with the sections argument
omitted/None or with an empty section list gives identical results, and
every returned segment carries an empty `sections` field. -/
theorem extraction_without_sections (cfg : Config) (score : Score) (bnd : BoundaryValue) :
    (extract_phrases cfg score none = extract_phrases cfg score (some []) ∧
      extract_segments cfg score bnd none = extract_segments cfg score bnd (some [])) ∧
      (∀ segs, extract_phrases cfg score none = some segs ∨
          extract_segments cfg score bnd none = some segs →
        ∀ s ∈ segs, s.sections = []) := by
  constructor
  · constructor
    · simp only [extract_phrases]
      split
      · rfl
      · exact extract_none_eq cfg _ score "PHRASE"
    · cases bnd with
      | absent => rfl
      | ints l =>
        cases l with
        | nil => rfl
        | cons b tl => exact extract_none_eq cfg _ score "SEGMENT"
      | emptyArrayPlaceholder => rfl
      | malformed => rfl
  · rintro segs (h | h)
    · simp only [extract_phrases] at h
      split at h
      · cases h
        intro s hs
        simp at hs
      · exact extract_sections_nil (Or.inl rfl) h
    · cases bnd with
      | absent =>
        cases h
        intro s hs
        simp at hs
      | ints l =>
        cases l with
        | nil =>
          cases h
          intro s hs
          simp at hs
        | cons b tl => exact extract_sections_nil (Or.inl rfl) h
      | emptyArrayPlaceholder =>
        cases h
        intro s hs
        simp at hs
      | malformed =>
        cases h
        intro s hs
        simp at hs

/-- Witness for C10 on the concrete five-note annotated score. -/
theorem extraction_without_sections_witness :
    ∀ s ∈ ([{ name := "VOCAL_PHRASE", slug := "VOCAL_PHRASE", flavor := [], lyrics := "la",
              sections := [], start_note := 1, end_note := 2, structural_label := some "L" },
            { name := "VOCAL_PHRASE", slug := "VOCAL_PHRASE", flavor := [], lyrics := "do",
              sections := [], start_note := 3, end_note := 5, structural_label := some "L" }] :
              List Segment),
      s.sections = [] :=
  (extraction_without_sections ⟨true, fun _ _ _ => "L"⟩
      ⟨[0, 0, 53, 0, 0], ["", "la", "", "", "do"], 0⟩ BoundaryValue.absent).2
    [{ name := "VOCAL_PHRASE", slug := "VOCAL_PHRASE", flavor := [], lyrics := "la",
       sections := [], start_note := 1, end_note := 2, structural_label := some "L" },
     { name := "VOCAL_PHRASE", slug := "VOCAL_PHRASE", flavor := [], lyrics := "do",
       sections := [], start_note := 3, end_note := 5, structural_label := some "L" }]
    (Or.inl (by decide))

end Tomato
